import Mathlib

/-!
Shallow embedding of ipydb's metadata cache/refresh subsystem
(`ipydb/metadata.py` and `ipydb/metadata/__init__.py`) together with
theorems checking the natural-language specification against it.

Machine timestamps are modelled as `Int` seconds; Python sets as
`Finset String`; Python dicts as insertion-ordered association lists;
SQL tables of the persistence store as lists of row structures.
-/

set_option autoImplicit false

namespace Ipydb

/-- `CACHE_MAX_AGE = 60 * 10` seconds, from `ipydb/metadata.py`. -/
def CACHE_MAX_AGE : Int := 60 * 10

/-- The initial `created` stamp `datetime.datetime(datetime.MINYEAR, 1, 1)`
of a fresh `MetaData`, as seconds relative to the Unix epoch (year 1). -/
def minCreated : Int := -62135596800

/-- ASCII lowercasing of one character, as Python's `str.lower()` does
byte-wise. -/
def lowerChar (c : Char) : Char :=
  if 'A' ≤ c ∧ c ≤ 'Z' then Char.ofNat (c.toNat + 32) else c

/-- Python's `str.lower()`. -/
def pyLower (s : String) : String := ⟨s.data.map lowerChar⟩

/-- Splitting a character list on a separator, as Python's
`str.split(sep)` does: `''` gives `['']`, a trailing separator a trailing
empty segment. -/
def splitChars (sep : Char) : List Char → List (List Char)
  | [] => [[]]
  | c :: rest =>
      let r := splitChars sep rest
      if c = sep then [] :: r
      else
        match r with
        | [] => [[c]]
        | seg :: segs => (c :: seg) :: segs

/-- Python's `s.split(sep)` for a one-character separator. -/
def pySplit (sep : Char) (s : String) : List String :=
  (splitChars sep s.data).map String.mk

/-- `ForeignKey = namedtuple('ForeignKey', 'table columns reftable refcolumns')`. -/
structure ForeignKey where
  table : String
  columns : List String
  reftable : String
  refcolumns : List String
deriving DecidableEq, Repr

/-- The loop of `fk_as_join`: walks the source columns, pairing the idx-th
source column with the idx-th referenced column (an exhausted referenced
list is the `IndexError` case, rendered as `none`). The first iteration
uses the separator passed in (`''` from the caller), later ones `' and '`. -/
def fkJoinLoop (reftable table : String) :
    List String → List String → String → String → Option String
  | [], _, joinstr, _ => some joinstr
  | _ :: _, [], _, _ => none
  | c :: cs, r :: rs, joinstr, sep =>
      fkJoinLoop reftable table cs rs
        (joinstr ++ sep ++ reftable ++ "." ++ r ++ " = " ++ table ++ "." ++ c)
        " and "

/-- `fk_as_join(fk)` from `ipydb/metadata.py`:
`joinstr = '%s inner join %s on ' % (fk.reftable, fk.table)` followed by the
enumeration loop over `fk.columns` against `fk.refcolumns[idx]`. -/
def fk_as_join (fk : ForeignKey) : Option String :=
  fkJoinLoop fk.reftable fk.table fk.columns fk.refcolumns
    (fk.reftable ++ " inner join " ++ fk.table ++ " on ") ""

/-- In-memory snapshot `MetaData` from `ipydb/metadata.py`: cache-control
flags plus the completion data (`tables`, `fields`, `dottedfields` are
Python sets, `types` a dict, `foreign_keys` a list). -/
structure MetaData where
  isempty : Bool
  reflecting : Bool
  created : Int
  tables : Finset String
  fields : Finset String
  dottedfields : Finset String
  types : List (String × String)
  foreign_keys : List ForeignKey
deriving DecidableEq

/-- A freshly constructed `MetaData()` (the `defaultdict` factory `_meta`). -/
def defaultMeta : MetaData :=
  { isempty := true
    reflecting := false
    created := minCreated
    tables := ∅
    fields := ∅
    dottedfields := ∅
    types := []
    foreign_keys := [] }

/-- Python dict assignment `d[k] = v` on an insertion-ordered assoc list:
overwrite in place when the key is present, else append. -/
def dictSet (d : List (String × String)) (k v : String) : List (String × String) :=
  if d.any (fun p => p.1 = k) then
    d.map (fun p => if p.1 = k then (k, v) else p)
  else
    d ++ [(k, v)]

/-- Python dict lookup `d.get(k)`. -/
def dictGet (d : List (String × String)) (k : String) : Option String :=
  (d.find? (fun p => p.1 = k)).map (fun p => p.2)

/-- `MetaData.tables_referencing(table)`: fold the `for fk in
self.foreign_keys` loop with its `if table == fk.table ... elif table ==
fk.reftable` branches over a result set. -/
def tables_referencing (md : MetaData) (table : String) : Finset String :=
  md.foreign_keys.foldl
    (fun refs fk =>
      if table = fk.table then insert fk.reftable refs
      else if table = fk.reftable then insert fk.table refs
      else refs) ∅

/-! ## Reflector-side input: sqlalchemy tables, columns, constraints -/

/-- A sqlalchemy `ForeignKeyConstraint` as seen by
`_get_foreign_key_info`: only its (possibly null) name is consulted. -/
structure SaConstraint where
  name : Option String
deriving DecidableEq, Repr

/-- One element of `column.foreign_keys`: the owning constraint (or none)
and `target_fullname` (`"reftable.refcolumn"`). -/
structure SaForeignKeyRef where
  constraint : Option SaConstraint
  target_fullname : String
deriving DecidableEq, Repr

/-- A reflected sqlalchemy column: `col.name`, `str(col.type)` and its
`foreign_keys` collection. -/
structure Column where
  name : String
  ctype : String
  foreign_keys : List SaForeignKeyRef
deriving DecidableEq, Repr

/-- A reflected sqlalchemy `Table`: `t.name` (reflector's spelling) and
`t.columns` in order. -/
structure SaTable where
  name : String
  columns : List Column
deriving DecidableEq, Repr

/-- Python truthiness of an optional string (`if refcolumn:`): present and
non-empty. -/
def optTruthy : Option String → Bool
  | none => false
  | some s => !s.isEmpty

/-- `CompletionDataAccessor._get_foreign_key_info(column)`: when the column
has a foreign key whose constraint is present, return the constraint's
name, position `1`, and the two components of `target_fullname.split('.')`;
otherwise all `None`. -/
def getForeignKeyInfo (col : Column) :
    Option String × Option Nat × Option String × Option String :=
  match col.foreign_keys with
  | [] => (none, none, none, none)
  | fk :: _ =>
      match fk.constraint with
      | none => (none, none, none, none)
      | some c =>
          let parts := pySplit '.' fk.target_fullname
          (c.name, some 1, some (parts.getD 0 ""), some (parts.getD 1 ""))

/-- The value type of the local `fks` dict built by `reflect_table` and
`read`: accumulated source columns and referenced columns per constraint. -/
structure FkAccum where
  table : String
  columns : List String
  referenced_table : String
  referenced_columns : List String
deriving DecidableEq, Repr

/-- One `fks[constraint_name]` update from `reflect_table` / `read`:
create the entry if the key is unseen, then append the source column name
and the referenced column name to its lists. -/
def fksAdd (fks : List (Option String × FkAccum)) (cn : Option String)
    (tablename reftable colname refcol : String) :
    List (Option String × FkAccum) :=
  if fks.any (fun p => p.1 = cn) then
    fks.map (fun p =>
      if p.1 = cn then
        (p.1, { p.2 with
                columns := p.2.columns ++ [colname],
                referenced_columns := p.2.referenced_columns ++ [refcol] })
      else p)
  else
    fks ++ [(cn, ⟨tablename, [colname], reftable, [refcol]⟩)]

/-- The `for name, dct in fks.iteritems()` epilogue shared by
`reflect_table`: build each `ForeignKey`, `all_fks.remove(fk)` (ignoring
`ValueError`), then append it. -/
def mergeFks (all_fks : List ForeignKey)
    (fks : List (Option String × FkAccum)) : List ForeignKey :=
  fks.foldl
    (fun l p =>
      let fk : ForeignKey :=
        ⟨p.2.table, p.2.columns, p.2.referenced_table, p.2.referenced_columns⟩
      l.erase fk ++ [fk]) all_fks

/-- The per-column body of the loop in `reflect_table`: lowercase the field
name, add it (and the dotted name) to the sets, record the type, and feed
the foreign-key info into the local `fks` dict when `refcolumn` is truthy. -/
def reflectColumnStep (tablename : String)
    (acc : MetaData × List (Option String × FkAccum)) (col : Column) :
    MetaData × List (Option String × FkAccum) :=
  let md := acc.1
  let fks := acc.2
  let fieldname := (pyLower col.name)
  let dottedname := tablename ++ "." ++ fieldname
  let md := { md with
              fields := insert fieldname md.fields,
              dottedfields := insert dottedname md.dottedfields,
              types := dictSet md.types dottedname col.ctype }
  let info := getForeignKeyInfo col
  let fks :=
    if optTruthy info.2.2.2 then
      fksAdd fks info.1 tablename (info.2.2.1.getD "") col.name
        (info.2.2.2.getD "")
    else fks
  (md, fks)

/-- `CompletionDataAccessor.reflect_table` restricted to its effect on the
in-memory `MetaData` entry: lowercase the table name, add it to `tables`,
clear `isempty`, process each column, then merge the accumulated foreign
keys into `foreign_keys` (remove-equal-then-append). -/
def reflect_table (md : MetaData) (t : SaTable) : MetaData :=
  let tablename := (pyLower t.name)
  let md := { md with tables := insert tablename md.tables, isempty := false }
  let res := t.columns.foldl (reflectColumnStep tablename) (md, [])
  { res.1 with foreign_keys := mergeFks res.1.foreign_keys res.2 }

/-- `CompletionDataAccessor.reflect_metadata` on the entry: reflect every
table returned by the reflector (in the source's sorted enumeration order),
then stamp `created` with the current time and clear `reflecting`. -/
def reflect_metadata (md : MetaData) (tbls : List SaTable) (now : Int) :
    MetaData :=
  let md := tbls.foldl reflect_table md
  { md with created := now, reflecting := false }

/-! ## Persistence store: the sqlite schema `dbtable` / `dbfield` -/

/-- A row of `dbtable`: `id, db_key, name, created` with
`unique (db_key, name)`. -/
structure DbTableRow where
  id : Nat
  db_key : String
  name : String
  created : Int
deriving DecidableEq, Repr

/-- A row of `dbfield`: `id, table_id, name, type, constraint_name,
position_in_constraint, referenced_table, referenced_column` with
`unique (table_id, name)`. -/
structure DbFieldRow where
  id : Nat
  table_id : Nat
  name : String
  type_ : String
  constraint_name : Option String
  position_in_constraint : Option Nat
  referenced_table : Option String
  referenced_column : Option String
deriving DecidableEq, Repr

/-- The sqlite store: whether the two tables exist, and their rows in rowid
order. -/
structure Store where
  hasSchema : Bool
  dbtables : List DbTableRow
  dbfields : List DbFieldRow
deriving DecidableEq, Repr

/-- `create_schema`: `create table if not exists` for both tables — a
no-op when the schema is already present. -/
def create_schema (s : Store) : Store :=
  if s.hasSchema then s else { s with hasSchema := true }

/-- `delete_schema`: `drop table dbfield; drop table dbtable` — the tables
and all their rows are gone. -/
def delete_schema (_s : Store) : Store :=
  { hasSchema := false, dbtables := [], dbfields := [] }

/-- The store as first created: schema present, no rows. -/
def emptyStore : Store := { hasSchema := true, dbtables := [], dbfields := [] }

/-- sqlite's next rowid for `dbtable` (`integer primary key`): one more
than the largest existing id. -/
def nextTableId (s : Store) : Nat :=
  (s.dbtables.map (fun r => r.id)).foldl max 0 + 1

/-- sqlite's next rowid for `dbfield`. -/
def nextFieldId (fl : List DbFieldRow) : Nat :=
  (fl.map (fun r => r.id)).foldl max 0 + 1

/-- `select id from dbtable where db_key=:db_key and name=:table` followed
by `fetchone()`. -/
def selectTableId (s : Store) (db_key tname : String) : Option Nat :=
  (s.dbtables.find? (fun r => r.db_key = db_key && r.name = tname)).map
    (fun r => r.id)

/-- Does `dbfield` already hold a row for `(table_id, name)` — exactly the
condition under which the insert raises its uniqueness violation. -/
def fieldConflict (fl : List DbFieldRow) (tid : Nat) (nm : String) : Bool :=
  fl.any (fun r => r.table_id = tid && r.name = nm)

/-- The `dbfield` row inserted for a column by `write_table` (a fresh
rowid; values from the column and `_get_foreign_key_info`). -/
def newFieldRow (fl : List DbFieldRow) (tid : Nat) (col : Column) :
    DbFieldRow :=
  let info := getForeignKeyInfo col
  { id := nextFieldId fl
    table_id := tid
    name := col.name
    type_ := col.ctype
    constraint_name := info.1
    position_in_constraint := info.2.1
    referenced_table := info.2.2.1
    referenced_column := info.2.2.2 }

/-- `insert into dbfield ...`: raises (`Except.error`) on a
`unique (table_id, name)` violation, else appends the row. -/
def insertFieldE (fl : List DbFieldRow) (row : DbFieldRow) :
    Except Unit (List DbFieldRow) :=
  if fieldConflict fl row.table_id row.name then Except.error ()
  else Except.ok (fl ++ [row])

/-- The `update dbfield set ... where table_id=... and name=...` issued by
`write_table`'s except-branch: overwrite the value columns of every
matching row, leaving ids and names alone. -/
def updateFieldRow (fl : List DbFieldRow) (tid : Nat) (col : Column) :
    List DbFieldRow :=
  let info := getForeignKeyInfo col
  fl.map (fun r =>
    if r.table_id = tid && r.name = col.name then
      { r with
        type_ := col.ctype
        constraint_name := info.1
        position_in_constraint := info.2.1
        referenced_table := info.2.2.1
        referenced_column := info.2.2.2 }
    else r)

/-- One column of `write_table`'s loop: `try: insert ... except
IntegrityError: update ...`. -/
def writeFieldStep (tid : Nat) (fl : List DbFieldRow) (col : Column) :
    List DbFieldRow :=
  match insertFieldE fl (newFieldRow fl tid col) with
  | Except.ok fl' => fl'
  | Except.error _ => updateFieldRow fl tid col

/-- The table-row phase shared by `write_table` and `write`: reuse the id
of the existing `(db_key, name)` row, else insert a fresh row stamped with
the current time and use its rowid. -/
def resolveTableId (s : Store) (db_key tname : String) (now : Int) :
    Nat × Store :=
  match selectTableId s db_key tname with
  | some i => (i, s)
  | none =>
      let i := nextTableId s
      (i, { s with dbtables := s.dbtables ++ [⟨i, db_key, tname, now⟩] })

/-- `CompletionDataAccessor.write_table(sqconn, db_key, table)`: resolve
(or insert) the table row, then upsert one `dbfield` row per column. -/
def write_table (s : Store) (db_key : String) (now : Int) (t : SaTable) :
    Store :=
  let res := resolveTableId s db_key t.name now
  { res.2 with
    dbfields := t.columns.foldl (writeFieldStep res.1) res.2.dbfields }

/-- `write_table` with the exception flow explicit: the `dbtable` insert is
not guarded by any `try`, so a uniqueness violation there would surface;
the per-column inserts are caught and converted to updates as in the
source. -/
def write_tableE (s : Store) (db_key : String) (now : Int) (t : SaTable) :
    Except Unit Store :=
  match selectTableId s db_key t.name with
  | some i =>
      Except.ok { s with dbfields := t.columns.foldl (writeFieldStep i) s.dbfields }
  | none =>
      let i := nextTableId s
      if s.dbtables.any (fun r => r.db_key = db_key && r.name = t.name) then
        Except.error ()
      else
        let s2 : Store := { s with dbtables := s.dbtables ++ [⟨i, db_key, t.name, now⟩] }
        Except.ok { s2 with dbfields := t.columns.foldl (writeFieldStep i) s2.dbfields }

/-- One field of `CompletionDataAccessor.write(sqconn, db_key, table,
field, type_)`: the same try-insert / except-update shape, with only
`(table_id, name, type)` inserted and only `type` updated. -/
def writeFieldSimpleStep (tid : Nat) (fl : List DbFieldRow)
    (field type_ : String) : List DbFieldRow :=
  let row : DbFieldRow :=
    ⟨nextFieldId fl, tid, field, type_, none, none, none, none⟩
  match insertFieldE fl row with
  | Except.ok fl' => fl'
  | Except.error _ =>
      fl.map (fun r =>
        if r.table_id = tid && r.name = field then { r with type_ := type_ }
        else r)

/-- `CompletionDataAccessor.write`. -/
def write (s : Store) (db_key table field type_ : String) (now : Int) :
    Store :=
  let res := resolveTableId s db_key table now
  { res.2 with dbfields := writeFieldSimpleStep res.1 res.2.dbfields field type_ }

/-- `write` with the exception flow explicit (the unguarded `dbtable`
insert may error; the field insert's violation is caught). -/
def writeE (s : Store) (db_key table field type_ : String) (now : Int) :
    Except Unit Store :=
  match selectTableId s db_key table with
  | some i =>
      Except.ok { s with dbfields := writeFieldSimpleStep i s.dbfields field type_ }
  | none =>
      let i := nextTableId s
      if s.dbtables.any (fun r => r.db_key = db_key && r.name = table) then
        Except.error ()
      else
        let s2 : Store := { s with dbtables := s.dbtables ++ [⟨i, db_key, table, now⟩] }
        Except.ok { s2 with dbfields := writeFieldSimpleStep i s2.dbfields field type_ }

/-! ## `read`, `get_metadata`, `flush` of `CompletionDataAccessor` -/

/-- One row of the join query issued by `CompletionDataAccessor.read`. -/
structure ReadRow where
  tablename : String
  fieldname : String
  ftype : String
  constraint_name : Option String
  referenced_table : Option String
  referenced_column : Option String
deriving DecidableEq, Repr

/-- The result set of `read`'s query: `dbtable` rows for the key joined
with their `dbfield` rows (`f.table_id = t.id`). -/
def readRows (s : Store) (db_key : String) : List ReadRow :=
  (s.dbtables.filter (fun t => t.db_key = db_key)).flatMap (fun t =>
    (s.dbfields.filter (fun f => f.table_id = t.id)).map (fun f =>
      ⟨t.name, f.name, f.type_, f.constraint_name, f.referenced_table,
       f.referenced_column⟩))

/-- `select max(created) from dbtable where db_key = :db_key`. -/
def maxCreated (s : Store) (db_key : String) : Option Int :=
  match (s.dbtables.filter (fun t => t.db_key = db_key)).map
      (fun t => t.created) with
  | [] => none
  | c :: cs => some (cs.foldl max c)

/-- The per-row body of `read`'s loop: clear `isempty`, add the stored
names to the sets and the type to the dict, and accumulate foreign-key
parts keyed by `constraint_name` when it is truthy. -/
def readRowStep (acc : MetaData × List (Option String × FkAccum))
    (r : ReadRow) : MetaData × List (Option String × FkAccum) :=
  let md := acc.1
  let dotted := r.tablename ++ "." ++ r.fieldname
  let md := { md with
              isempty := false,
              tables := insert r.tablename md.tables,
              fields := insert r.fieldname md.fields,
              dottedfields := insert dotted md.dottedfields,
              types := dictSet md.types dotted r.ftype }
  let fks :=
    if optTruthy r.constraint_name then
      fksAdd acc.2 r.constraint_name r.tablename (r.referenced_table.getD "")
        r.fieldname (r.referenced_column.getD "")
    else acc.2
  (md, fks)

/-- The `for name, dct in fks.iteritems()` epilogue of `read`: the
foreign-key list is rebuilt from scratch (unlike `reflect_table`'s merge). -/
def fksToList (fks : List (Option String × FkAccum)) : List ForeignKey :=
  fks.map (fun p =>
    ⟨p.2.table, p.2.columns, p.2.referenced_table, p.2.referenced_columns⟩)

/-- `CompletionDataAccessor.read(db_key)`: replay the query rows into the
entry, replace `foreign_keys`, then set `created` from the store's
`max(created)` — or from the current time when the store holds no row for
this key. -/
def read (md : MetaData) (s : Store) (db_key : String) (now : Int) :
    MetaData :=
  let res := (readRows s db_key).foldl readRowStep (md, [])
  { res.1 with
    foreign_keys := fksToList res.2,
    created := (maxCreated s db_key).getD now }

/-- Result of one `get_metadata` call: the returned entry and whether a
background reflection was handed to the pool. -/
structure GetResult where
  md : MetaData
  scheduled : Bool
deriving DecidableEq

/-- `CompletionDataAccessor.get_metadata`: when the entry `isempty`,
synchronously `read` from the store and clear `isempty`; then, when
`(force or metadata.isempty or now - created > CACHE_MAX_AGE) and not
reflecting`, set `reflecting` and schedule `reflect_metadata`
asynchronously; return the entry. `nowRead` is the clock sample taken
inside `read`, `nowChk` the later sample used by the staleness check. -/
def get_metadata (md : MetaData) (s : Store) (db_key : String)
    (nowRead nowChk : Int) (force : Bool) : GetResult :=
  let md := if md.isempty then
      { read md s db_key nowRead with isempty := false }
    else md
  if (force || md.isempty ||
      decide (nowChk - md.created > CACHE_MAX_AGE)) && !md.reflecting then
    ⟨{ md with reflecting := true }, true⟩
  else
    ⟨md, false⟩

/-- The in-memory cache `self.metadata`: a `defaultdict` from db_key to
`MetaData`. -/
def Cache : Type := List (String × MetaData)

/-- `defaultdict` lookup `self.metadata[db_key]`: the stored entry, or a
fresh `MetaData()`. -/
def cacheGet (c : Cache) (db_key : String) : MetaData :=
  ((List.find? (fun p => p.1 = db_key) c).map (fun p => p.2)).getD defaultMeta

/-- `CompletionDataAccessor.flush`: after draining the pool, reset the
whole in-memory cache to a fresh `defaultdict`, drop the persisted schema
and recreate it. -/
def flush (_c : Cache) (s : Store) : Cache × Store :=
  (([] : List (String × MetaData)), create_schema (delete_schema s))

/-! ## `get_db_key`: connection identity -/

/-- The identity-relevant attributes of an sqlalchemy `URL` (plus the
password, which `get_db_key` must not consult). -/
structure URLModel where
  drivername : String
  username : Option String
  password : Option String
  host : Option String
  port : Option Nat
  database : Option String
deriving DecidableEq, Repr

/-- `str(url)` for an sqlalchemy `URL`:
`driver://[user[:password]@][host][:port][/database]`. -/
def renderURL (u : URLModel) : String :=
  u.drivername ++ "://"
  ++ (match u.username with
      | none => ""
      | some us =>
          us ++ (match u.password with
                 | none => ""
                 | some pw => ":" ++ pw) ++ "@")
  ++ u.host.getD ""
  ++ (match u.port with
      | none => ""
      | some p => ":" ++ toString p)
  ++ (match u.database with
      | none => ""
      | some d => "/" ++ d)

/-- The `URL(url.drivername, url.username, host=url.host, port=url.port,
database=url.database)` built by both `get_db_key` variants: the password
is simply not passed along. -/
def keyURLOf (u : URLModel) : URLModel :=
  ⟨u.drivername, u.username, none, u.host, u.port, u.database⟩

/-- `CompletionDataAccessor.get_db_key(url)` from `ipydb/metadata.py`:
the credential-free URL rendered as a string. -/
def get_db_key_v1 (u : URLModel) : String :=
  renderURL (keyURLOf u)

/-- A Python-2 `str` as its byte values. -/
def strToBytes (s : String) : List Nat :=
  s.data.map (fun c => c.toNat % 256)

/-- The alphabet used by `base64.urlsafe_b64encode`: standard base64 with
`-` and `_` for `+` and `/`. -/
def b64chars : List Char :=
  "ABCDEFGHIJKLMNOPQRSTUVWXYZabcdefghijklmnopqrstuvwxyz0123456789-_".toList

/-- Index into the url-safe base64 alphabet. -/
def b64char (i : Nat) : Char := b64chars.getD i '?'

/-- `base64.urlsafe_b64encode` on a byte list: 3 bytes become 4 alphabet
characters, with `=`-padding for a trailing group of 1 or 2 bytes. -/
def urlsafe_b64encode : List Nat → List Char
  | [] => []
  | [b1] => [b64char (b1 / 4), b64char (b1 % 4 * 16), '=', '=']
  | [b1, b2] =>
      [b64char (b1 / 4), b64char (b1 % 4 * 16 + b2 / 16),
       b64char (b2 % 16 * 4), '=']
  | b1 :: b2 :: b3 :: rest =>
      b64char (b1 / 4) :: b64char (b1 % 4 * 16 + b2 / 16) ::
      b64char (b2 % 16 * 4 + b3 / 64) :: b64char (b3 % 64) ::
      urlsafe_b64encode rest

/-- `get_db_key(engine)` from `ipydb/metadata/__init__.py`: the
credential-free URL string, base64-url-safe encoded. -/
def get_db_key (u : URLModel) : String :=
  String.mk (urlsafe_b64encode (strToBytes (renderURL (keyURLOf u))))

/-! ## Derived step functions and predicates used by the theorems -/

/-- The step function of `tables_referencing`'s loop. -/
def trStep (table : String) (refs : Finset String) (fk : ForeignKey) :
    Finset String :=
  if table = fk.table then insert fk.reftable refs
  else if table = fk.reftable then insert fk.table refs
  else refs

/-- The foreign-key half of `reflect_table`'s column loop in isolation. -/
def fkStepOnly (tn : String) (fks : List (Option String × FkAccum))
    (col : Column) : List (Option String × FkAccum) :=
  let info := getForeignKeyInfo col
  if optTruthy info.2.2.2 then
    fksAdd fks info.1 tn (info.2.2.1.getD "") col.name (info.2.2.2.getD "")
  else fks

/-- The `fks` dict `reflect_table` accumulates for one table. -/
def buildFks (tn : String) (cols : List Column) :
    List (Option String × FkAccum) :=
  cols.foldl (fkStepOnly tn) []

/-- The `ForeignKey` value built from one `fks` dict entry by the merge
epilogue of `reflect_table`. -/
def fkOf (p : Option String × FkAccum) : ForeignKey :=
  ⟨p.2.table, p.2.columns, p.2.referenced_table, p.2.referenced_columns⟩

/-- The value assignment performed by the update branch of `write_table`,
applied to one row. -/
def setVals (r : DbFieldRow) (col : Column) : DbFieldRow :=
  let info := getForeignKeyInfo col
  { r with
    type_ := col.ctype
    constraint_name := info.1
    position_in_constraint := info.2.1
    referenced_table := info.2.2.1
    referenced_column := info.2.2.2 }

/-- A character a file name can safely contain: alphanumeric, `-`, `_`,
or the base64 pad `=`. -/
def fsSafeChar (c : Char) : Bool :=
  c.isAlphanum || c = '-' || c = '_' || c = '='

/-! ## Spec-side comparison definitions

These two definitions transcribe the specification's wording (not the
source) and exist only to be compared against the embedded code. -/

/-- Strings "joined with `and`", as the spec words the join-clause format. -/
def joinedWithAnd : List String → String
  | [] => ""
  | x :: xs => xs.foldl (fun a y => a ++ " and " ++ y) x

/-- The join clause exactly as the spec describes it:
`"<reftable> inner join <table> on "` followed by the positionally paired
equalities `"<reftable>.<refcol_i> = <table>.<col_i>"` joined by `" and "`. -/
def specJoin (fk : ForeignKey) : String :=
  fk.reftable ++ " inner join " ++ fk.table ++ " on " ++
    joinedWithAnd ((fk.columns.zip fk.refcolumns).map
      (fun p => fk.reftable ++ "." ++ p.2 ++ " = " ++ fk.table ++ "." ++ p.1))

/-- The spec's staleness condition for `get_metadata`: refresh is warranted
when `force` is true, or the entry is `isempty`, or `now - created`
exceeds `CACHE_MAX_AGE` — and only when not already `reflecting`. -/
def specWarranted (md : MetaData) (now : Int) (force : Bool) : Bool :=
  (force || md.isempty || decide (now - md.created > CACHE_MAX_AGE)) &&
    !md.reflecting

/-! ## Theorems: `fk_as_join` (C5) -/

/-- The loop of `fk_as_join`, once past its first iteration, is a left
fold that appends `" and "`-separated equalities. -/
theorem fkJoinLoop_eq_foldl (rt tb : String) :
    ∀ (cs rs : List String) (s : String), cs.length = rs.length →
      fkJoinLoop rt tb cs rs s " and " =
        some (((cs.zip rs).map
            (fun p => rt ++ "." ++ p.2 ++ " = " ++ tb ++ "." ++ p.1)).foldl
          (fun a y => a ++ " and " ++ y) s)
  | [], rs, s, h => by
      cases rs with
      | nil => rfl
      | cons r rs => simp at h
  | c :: cs, rs, s, h => by
      cases rs with
      | nil => simp at h
      | cons r rs =>
          simp only [fkJoinLoop, List.zip_cons_cons, List.map_cons,
            List.foldl_cons]
          rw [fkJoinLoop_eq_foldl rt tb cs rs _ (by simpa using h)]
          congr 2
          simp [String.append_assoc]

/-- This fold only appends to the right of its accumulator, so a common
prefix factors out. -/
theorem foldl_and_append_left (p : String) :
    ∀ (l : List String) (x : String),
      l.foldl (fun a y => a ++ " and " ++ y) (p ++ x) =
        p ++ l.foldl (fun a y => a ++ " and " ++ y) x
  | [], x => rfl
  | y :: ys, x => by
      simp only [List.foldl_cons]
      rw [show p ++ x ++ " and " ++ y = p ++ (x ++ " and " ++ y) by
        simp [String.append_assoc]]
      exact foldl_and_append_left p ys _

/-- C5: for a `ForeignKey` whose `n ≥ 1` source columns are positionally
paired with `n` referenced columns, `fk_as_join` returns exactly
`"<reftable> inner join <table> on "` followed by the equalities
`"<reftable>.<refcol_i> = <table>.<col_i>"` in pair order, joined by
`" and "`. -/
theorem fk_as_join_spec (fk : ForeignKey)
    (hlen : fk.columns.length = fk.refcolumns.length)
    (hne : fk.columns ≠ []) :
    fk_as_join fk = some (specJoin fk) := by
  rcases hc : fk.columns with _ | ⟨c, cs⟩
  · exact absurd hc hne
  · rcases hr : fk.refcolumns with _ | ⟨r, rs⟩
    · rw [hc, hr] at hlen; simp at hlen
    · have hlen' : cs.length = rs.length := by
        rw [hc, hr] at hlen; simpa using hlen
      unfold fk_as_join specJoin
      rw [hc, hr]
      simp only [fkJoinLoop, List.zip_cons_cons, List.map_cons, joinedWithAnd]
      rw [fkJoinLoop_eq_foldl fk.reftable fk.table cs rs _ hlen']
      congr 1
      rw [show fk.reftable ++ " inner join " ++ fk.table ++ " on " ++ "" ++
            fk.reftable ++ "." ++ r ++ " = " ++ fk.table ++ "." ++ c =
          (fk.reftable ++ " inner join " ++ fk.table ++ " on ") ++
            (fk.reftable ++ "." ++ r ++ " = " ++ fk.table ++ "." ++ c) by
        simp [String.append_assoc, String.append_empty]]
      rw [foldl_and_append_left]

/-- C5 witness: the spec's own example
`orders.customer_id -> customers.id`. -/
theorem fk_as_join_spec_witness :
    fk_as_join ⟨"orders", ["customer_id"], "customers", ["id"]⟩ =
      some "customers inner join orders on customers.id = orders.customer_id" :=
  (fk_as_join_spec ⟨"orders", ["customer_id"], "customers", ["id"]⟩
    rfl (by decide)).trans (by rfl)

/-! ## Theorems: `tables_referencing` (C6) -/

/-- Membership in the accumulated reference set. -/
theorem mem_trStep_foldl (t : String) :
    ∀ (l : List ForeignKey) (acc : Finset String) (x : String),
      (x ∈ l.foldl (trStep t) acc ↔
        x ∈ acc ∨ ∃ fk ∈ l,
          (fk.table = t ∧ fk.reftable = x) ∨ (fk.reftable = t ∧ fk.table = x))
  | [], acc, x => by simp
  | fk :: l, acc, x => by
      simp only [List.foldl_cons, mem_trStep_foldl t l, List.mem_cons]
      unfold trStep
      constructor
      · rintro (h | h)
        · split_ifs at h with h1 h2
          · rcases Finset.mem_insert.mp h with h3 | h3
            · exact Or.inr ⟨fk, Or.inl rfl, Or.inl ⟨h1.symm, h3.symm⟩⟩
            · exact Or.inl h3
          · rcases Finset.mem_insert.mp h with h3 | h3
            · exact Or.inr ⟨fk, Or.inl rfl, Or.inr ⟨h2.symm, h3.symm⟩⟩
            · exact Or.inl h3
          · exact Or.inl h
        · rcases h with ⟨fk', hfk', hp⟩
          exact Or.inr ⟨fk', Or.inr hfk', hp⟩
      · rintro (h | ⟨fk', hfk | hfk, hp⟩)
        · refine Or.inl ?_
          split_ifs with h1 h2
          · exact Finset.mem_insert_of_mem h
          · exact Finset.mem_insert_of_mem h
          · exact h
        · refine Or.inl ?_
          subst hfk
          rcases hp with ⟨ha, hb⟩ | ⟨ha, hb⟩
          · split_ifs with h1 h2
            · exact Finset.mem_insert.mpr (Or.inl hb.symm)
            · exact absurd ha.symm h1
            · exact absurd ha.symm h1
          · split_ifs with h1 h2
            · exact Finset.mem_insert.mpr (Or.inl (ha.trans (h1.trans hb)).symm)
            · exact Finset.mem_insert.mpr (Or.inl hb.symm)
            · exact absurd ha.symm h2
        · exact Or.inr ⟨fk', hfk, hp⟩

/-- C6: `tables_referencing(t)` is exactly the set of table names
connected to `t` by some foreign key in either direction — the reftables
of keys whose source is `t` together with the sources of keys whose
reftable is `t`, and nothing else. -/
theorem tables_referencing_spec (md : MetaData) (t x : String) :
    x ∈ tables_referencing md t ↔
      ∃ fk ∈ md.foreign_keys,
        (fk.table = t ∧ fk.reftable = x) ∨ (fk.reftable = t ∧ fk.table = x) := by
  have : tables_referencing md t = md.foreign_keys.foldl (trStep t) ∅ := rfl
  rw [this, mem_trStep_foldl]
  simp

/-! ## Theorems: `get_db_key` (C7) -/

/-- Every character of the url-safe base64 alphabet is filesystem-safe. -/
theorem b64chars_safe : ∀ c ∈ b64chars, fsSafeChar c = true := by decide

/-- Indexing the alphabet below its length lands inside it. -/
theorem b64char_safe (i : Nat) (h : i < 64) : fsSafeChar (b64char i) = true := by
  apply b64chars_safe
  unfold b64char
  have hlen : i < b64chars.length := by
    have : b64chars.length = 64 := by decide
    omega
  rw [List.getD_eq_getElem b64chars _ hlen]
  exact List.getElem_mem hlen

/-- `=` is filesystem-safe. -/
theorem pad_safe : fsSafeChar '=' = true := by decide

/-- Every character `urlsafe_b64encode` emits on byte input is
filesystem-safe. -/
theorem urlsafe_b64encode_safe :
    ∀ (bs : List Nat), (∀ b ∈ bs, b < 256) →
      ∀ c ∈ urlsafe_b64encode bs, fsSafeChar c = true
  | [], _, c, hc => by simp [urlsafe_b64encode] at hc
  | [b1], h, c, hc => by
      have hb1 : b1 < 256 := h b1 (by simp)
      simp only [urlsafe_b64encode, List.mem_cons, List.not_mem_nil,
        or_false] at hc
      rcases hc with rfl | rfl | rfl | rfl
      · exact b64char_safe _ (by omega)
      · exact b64char_safe _ (by omega)
      · exact pad_safe
      · exact pad_safe
  | [b1, b2], h, c, hc => by
      have hb1 : b1 < 256 := h b1 (by simp)
      have hb2 : b2 < 256 := h b2 (by simp)
      simp only [urlsafe_b64encode, List.mem_cons, List.not_mem_nil,
        or_false] at hc
      rcases hc with rfl | rfl | rfl | rfl
      · exact b64char_safe _ (by omega)
      · exact b64char_safe _ (by omega)
      · exact b64char_safe _ (by omega)
      · exact pad_safe
  | b1 :: b2 :: b3 :: rest, h, c, hc => by
      have hb1 : b1 < 256 := h b1 (by simp)
      have hb2 : b2 < 256 := h b2 (by simp)
      have hb3 : b3 < 256 := h b3 (by simp)
      simp only [urlsafe_b64encode, List.mem_cons] at hc
      rcases hc with rfl | rfl | rfl | rfl | hc
      · exact b64char_safe _ (by omega)
      · exact b64char_safe _ (by omega)
      · exact b64char_safe _ (by omega)
      · exact b64char_safe _ (by omega)
      · exact urlsafe_b64encode_safe rest
          (fun b hb => h b (by simp [hb])) c hc

/-- C7: both `get_db_key` variants are pure functions of exactly the
driver name, username, host, port, and database name — the password is
never consulted — and the base64-encoded `get_db_key` of
`ipydb/metadata/__init__.py` consists only of filesystem-safe characters. -/
theorem get_db_key_pure_and_safe :
    (∀ u1 u2 : URLModel,
      u1.drivername = u2.drivername → u1.username = u2.username →
      u1.host = u2.host → u1.port = u2.port → u1.database = u2.database →
      get_db_key u1 = get_db_key u2 ∧ get_db_key_v1 u1 = get_db_key_v1 u2) ∧
    (∀ (u : URLModel), ∀ c ∈ (get_db_key u).data, fsSafeChar c = true) := by
  constructor
  · intro u1 u2 h1 h2 h3 h4 h5
    have hk : keyURLOf u1 = keyURLOf u2 := by
      unfold keyURLOf
      rw [h1, h2, h3, h4, h5]
    unfold get_db_key get_db_key_v1
    rw [hk]
    exact ⟨rfl, rfl⟩
  · intro u c hc
    have hbytes : ∀ b ∈ strToBytes (renderURL (keyURLOf u)), b < 256 := by
      intro b hb
      unfold strToBytes at hb
      rcases List.mem_map.mp hb with ⟨ch, _, rfl⟩
      exact Nat.mod_lt _ (by omega)
    exact urlsafe_b64encode_safe _ hbytes c hc

/-- C7 witness: two concrete descriptors differing only in the password
produce the same key. -/
theorem get_db_key_pure_and_safe_witness :
    get_db_key ⟨"mysql", some "bob", some "secret", some "dbhost",
        some 3306, some "sales"⟩ =
      get_db_key ⟨"mysql", some "bob", none, some "dbhost",
        some 3306, some "sales"⟩ :=
  (get_db_key_pure_and_safe.1
    ⟨"mysql", some "bob", some "secret", some "dbhost", some 3306, some "sales"⟩
    ⟨"mysql", some "bob", none, some "dbhost", some 3306, some "sales"⟩
    rfl rfl rfl rfl rfl).1

/-! ## Theorems: `flush` (C9) -/

/-- C9: after `flush`, the persisted schema exists but holds no rows, and
every in-memory entry — in particular the flushed connection's — is gone,
so the next `get_metadata` lookup gets a fresh entry with `isempty` set. -/
theorem flush_spec (c : Cache) (s : Store) (k : String) :
    (flush c s).2.hasSchema = true ∧
    (flush c s).2.dbtables = [] ∧
    (flush c s).2.dbfields = [] ∧
    cacheGet (flush c s).1 k = defaultMeta ∧
    (cacheGet (flush c s).1 k).isempty = true :=
  ⟨rfl, rfl, rfl, rfl, rfl⟩

/-! ## Fold-invariance lemmas for `read` and `get_metadata` -/

/-- `read`'s row loop never touches the `reflecting` flag. -/
theorem readRowStep_foldl_reflecting :
    ∀ (rows : List ReadRow) (acc : MetaData × List (Option String × FkAccum)),
      ((rows.foldl readRowStep acc).1).reflecting = acc.1.reflecting
  | [], _ => rfl
  | r :: rows, acc => by
      rw [List.foldl_cons, readRowStep_foldl_reflecting rows]
      simp [readRowStep]

/-- The entry returned by `read` keeps the caller's `reflecting` flag. -/
theorem read_reflecting (md : MetaData) (s : Store) (k : String) (now : Int) :
    (read md s k now).reflecting = md.reflecting := by
  unfold read
  exact readRowStep_foldl_reflecting (readRows s k) (md, [])

/-- The `created` stamp `read` leaves behind: the store's `max(created)`
for the key, or the current time when the store has no row for it. -/
theorem read_created (md : MetaData) (s : Store) (k : String) (now : Int) :
    (read md s k now).created = (maxCreated s k).getD now := rfl

/-! ## Theorems: `get_metadata` staleness (C1) -/

/-- C1 counterexample: a first-ever call on a fresh entry with an empty
store.  The entry is `isempty`, so the spec's condition warrants a
refresh, but `get_metadata` schedules nothing: it clears `isempty` before
the staleness check and the synchronous `read` has just set `created` to
the current time. -/
theorem get_metadata_isempty_counterexample :
    specWarranted defaultMeta 0 false = true ∧
    (get_metadata defaultMeta emptyStore "k" 0 0 false).scheduled = false := by
  constructor
  · decide
  · rfl

/-- Closed form of `get_metadata`: the post-read entry fully determines
the staleness check. -/
theorem get_metadata_eq (md : MetaData) (s : Store) (k : String)
    (nr nc : Int) (force : Bool) :
    get_metadata md s k nr nc force =
      (if (force ||
            decide (nc - (if md.isempty then (maxCreated s k).getD nr
                          else md.created) > CACHE_MAX_AGE)) &&
          !md.reflecting then
        ⟨{ (if md.isempty then { read md s k nr with isempty := false }
            else md) with reflecting := true }, true⟩
      else
        ⟨(if md.isempty then { read md s k nr with isempty := false }
          else md), false⟩) := by
  cases hie : md.isempty
  · simp [get_metadata, hie]
  · simp [get_metadata, hie, read_created, read_reflecting]

/-- C1 amended: a reflection is scheduled iff `reflecting` is false and
(`force`, or `now - c > CACHE_MAX_AGE` where `c` is the `created` value
after the synchronous read: the store's `max(created)` if the entry was
`isempty` and the store holds rows for the key, the read-time clock if
the entry was `isempty` and the store holds none, and the entry's own
`created` otherwise).  The entry's `isempty` never warrants a refresh by
itself, because it is cleared before the check.  When nothing is
scheduled, the call returns the post-read snapshot unchanged. -/
theorem get_metadata_schedules_iff (md : MetaData) (s : Store) (k : String)
    (nr nc : Int) (force : Bool) :
    ((get_metadata md s k nr nc force).scheduled =
      ((force ||
        decide (nc - (if md.isempty then (maxCreated s k).getD nr
                      else md.created) > CACHE_MAX_AGE)) &&
        !md.reflecting)) ∧
    ((get_metadata md s k nr nc force).scheduled = false →
      (get_metadata md s k nr nc force).md =
        (if md.isempty then { read md s k nr with isempty := false }
         else md)) := by
  rw [get_metadata_eq]
  cases hcond : (force ||
      decide (nc - (if md.isempty then (maxCreated s k).getD nr
                    else md.created) > CACHE_MAX_AGE)) && !md.reflecting
  · simp
  · simp

/-- C1 amended witness: the fresh-entry/empty-store call instantiates the
amended condition and returns the post-read snapshot. -/
theorem get_metadata_schedules_iff_witness :
    (get_metadata defaultMeta emptyStore "k" 0 0 false).md =
      (if defaultMeta.isempty then
        { read defaultMeta emptyStore "k" 0 with isempty := false }
       else defaultMeta) :=
  (get_metadata_schedules_iff defaultMeta emptyStore "k" 0 0 false).2 rfl

/-! ## Theorems: single-flight reflection (C2) -/

/-- Completing a reflection always clears the `reflecting` flag. -/
theorem reflect_metadata_reflecting (md : MetaData) (tbls : List SaTable)
    (now : Int) : (reflect_metadata md tbls now).reflecting = false := rfl

/-- C2: while an entry's `reflecting` flag is true, a further
`get_metadata` call schedules no second reflection and still returns the
current snapshot; and each triggered refresh starts from
`reflecting = false`, sets the flag at hand-off, and `reflect_metadata`
clears it on completion — one true-then-false toggle per refresh. -/
theorem single_flight (md : MetaData) (s : Store) (k : String)
    (nr nc now2 : Int) (force : Bool) (tbls : List SaTable) :
    (md.reflecting = true →
      (get_metadata md s k nr nc force).scheduled = false ∧
      (get_metadata md s k nr nc force).md =
        (if md.isempty then { read md s k nr with isempty := false }
         else md)) ∧
    ((get_metadata md s k nr nc force).scheduled = true →
      md.reflecting = false ∧
      (get_metadata md s k nr nc force).md.reflecting = true ∧
      (reflect_metadata (get_metadata md s k nr nc force).md tbls
          now2).reflecting = false) := by
  rw [get_metadata_eq]
  cases hcond : (force ||
      decide (nc - (if md.isempty then (maxCreated s k).getD nr
                    else md.created) > CACHE_MAX_AGE)) && !md.reflecting
  · simp
  · have hnr : md.reflecting = false := by
      have h2 := ((Bool.and_eq_true _ _).mp hcond).2
      simpa using h2
    constructor
    · intro h
      simp [h] at hnr
    · intro _
      exact ⟨hnr, rfl, rfl⟩

/-- C2 witness: a call on a `reflecting` entry schedules nothing, and a
call that does schedule is followed by a completion that clears the flag. -/
theorem single_flight_witness :
    (get_metadata { defaultMeta with reflecting := true, isempty := false }
        emptyStore "k" 0 0 false).scheduled = false ∧
    (reflect_metadata
        (get_metadata { defaultMeta with isempty := false }
          emptyStore "k" 0 0 false).md [] 5).reflecting = false :=
  ⟨((single_flight { defaultMeta with reflecting := true, isempty := false }
      emptyStore "k" 0 0 5 false []).1 rfl).1,
   ((single_flight { defaultMeta with isempty := false }
      emptyStore "k" 0 0 5 false []).2 (by decide)).2.2⟩

/-! ## Characterizing `reflect_table` (for C8 and C10) -/

/-- Closed form of the column loop: the metadata half only grows the
field/dotted-field sets and the types dict, the dict half is
`fkStepOnly`. -/
theorem reflectColumnStep_foldl_char (tn : String) :
    ∀ (cols : List Column) (m : MetaData)
      (fks : List (Option String × FkAccum)),
      cols.foldl (reflectColumnStep tn) (m, fks) =
        ({ m with
           fields := cols.foldl (fun s c => insert (pyLower c.name) s) m.fields,
           dottedfields := cols.foldl
             (fun s c => insert (tn ++ "." ++ (pyLower c.name)) s)
             m.dottedfields,
           types := cols.foldl
             (fun ty c => dictSet ty (tn ++ "." ++ (pyLower c.name)) c.ctype)
             m.types },
         cols.foldl (fkStepOnly tn) fks)
  | [], m, fks => rfl
  | c :: cols, m, fks => by
      simp only [List.foldl_cons, reflectColumnStep]
      rw [reflectColumnStep_foldl_char tn cols]
      rfl

/-- Closed form of `reflect_table`'s effect on the entry. -/
theorem reflect_table_eq (md : MetaData) (t : SaTable) :
    reflect_table md t =
      { md with
        isempty := false,
        tables := insert (pyLower t.name) md.tables,
        fields := t.columns.foldl (fun s c => insert (pyLower c.name) s)
          md.fields,
        dottedfields := t.columns.foldl
          (fun s c => insert ((pyLower t.name) ++ "." ++ (pyLower c.name)) s)
          md.dottedfields,
        types := t.columns.foldl
          (fun ty c =>
            dictSet ty ((pyLower t.name) ++ "." ++ (pyLower c.name)) c.ctype)
          md.types,
        foreign_keys := mergeFks md.foreign_keys
          (buildFks (pyLower t.name) t.columns) } := by
  simp only [reflect_table, buildFks]
  rw [reflectColumnStep_foldl_char]

/-- Folding set-inserts only grows the set. -/
theorem foldl_insert_subset {α : Type} (f : α → String) :
    ∀ (l : List α) (s : Finset String),
      s ⊆ l.foldl (fun acc y => insert (f y) acc) s
  | [], s => Finset.Subset.refl s
  | y :: l, s => by
      rw [List.foldl_cons]
      exact (Finset.subset_insert (f y) s).trans
        (foldl_insert_subset f l (insert (f y) s))

/-- Every processed element's image lands in the folded set. -/
theorem mem_foldl_insert {α : Type} (f : α → String) :
    ∀ (l : List α) (s : Finset String) (x : α), x ∈ l →
      f x ∈ l.foldl (fun acc y => insert (f y) acc) s
  | [], _, _, hx => absurd hx (List.not_mem_nil _)
  | y :: l, s, x, hx => by
      rw [List.foldl_cons]
      rcases List.mem_cons.mp hx with rfl | hx'
      · exact foldl_insert_subset f l _ (Finset.mem_insert_self _ _)
      · exact mem_foldl_insert f l _ x hx'

/-! ## Theorems: reflection merges, it does not replace (C8) -/

/-- Reflecting a table list adds the lowercased reflected names to the
entry's existing table set. -/
theorem foldl_reflect_table_tables :
    ∀ (tbls : List SaTable) (md : MetaData),
      (tbls.foldl reflect_table md).tables =
        md.tables ∪ (tbls.map (fun t => (pyLower t.name))).toFinset
  | [], md => by simp
  | t :: tbls, md => by
      rw [List.foldl_cons, foldl_reflect_table_tables tbls, reflect_table_eq]
      simp [Finset.insert_union, Finset.union_insert]

/-- Previously cached field names survive a reflection. -/
theorem foldl_reflect_table_fields_subset :
    ∀ (tbls : List SaTable) (md : MetaData),
      md.fields ⊆ (tbls.foldl reflect_table md).fields
  | [], md => Finset.Subset.refl _
  | t :: tbls, md => by
      rw [List.foldl_cons]
      refine Finset.Subset.trans ?_
        (foldl_reflect_table_fields_subset tbls (reflect_table md t))
      rw [reflect_table_eq]
      exact foldl_insert_subset (fun c => (pyLower c.name)) t.columns md.fields

/-- Previously cached dotted field names survive a reflection. -/
theorem foldl_reflect_table_dotted_subset :
    ∀ (tbls : List SaTable) (md : MetaData),
      md.dottedfields ⊆ (tbls.foldl reflect_table md).dottedfields
  | [], md => Finset.Subset.refl _
  | t :: tbls, md => by
      rw [List.foldl_cons]
      refine Finset.Subset.trans ?_
        (foldl_reflect_table_dotted_subset tbls (reflect_table md t))
      rw [reflect_table_eq]
      exact foldl_insert_subset
        (fun c => (pyLower t.name) ++ "." ++ (pyLower c.name)) t.columns
        md.dottedfields

/-- The merge epilogue as a fold over `fkOf`. -/
theorem mergeFks_eq (l : List ForeignKey)
    (fks : List (Option String × FkAccum)) :
    mergeFks l fks =
      fks.foldl (fun acc p => acc.erase (fkOf p) ++ [fkOf p]) l := rfl

/-- The erase-then-append merge never loses a cached foreign key: an
erased element is erased only because an equal one is appended. -/
theorem mem_mergeFks_of_mem :
    ∀ (fks : List (Option String × FkAccum)) (l : List ForeignKey)
      (fk0 : ForeignKey), fk0 ∈ l → fk0 ∈ mergeFks l fks
  | [], _, _, h => h
  | q :: fks, l, fk0, h => by
      rw [mergeFks_eq] at *
      rw [List.foldl_cons]
      refine mem_mergeFks_of_mem fks _ fk0 ?_
      by_cases he : fk0 = fkOf q
      · exact List.mem_append_right _ (List.mem_singleton.mpr he)
      · exact List.mem_append_left _ ((List.mem_erase_of_ne he).mpr h)

/-- Every foreign key built from the dict ends up in the merged list. -/
theorem fkOf_mem_mergeFks :
    ∀ (fks : List (Option String × FkAccum)) (l : List ForeignKey)
      (p : Option String × FkAccum), p ∈ fks → fkOf p ∈ mergeFks l fks
  | [], _, p, hp => absurd hp (List.not_mem_nil p)
  | q :: fks, l, p, hp => by
      rw [mergeFks_eq, List.foldl_cons]
      rcases List.mem_cons.mp hp with rfl | hp'
      · refine mem_mergeFks_of_mem fks _ (fkOf p) ?_
        exact List.mem_append_right _ (List.mem_singleton.mpr rfl)
      · exact fkOf_mem_mergeFks fks _ p hp'

/-- Cached foreign keys survive the reflection of any table list. -/
theorem foldl_reflect_table_fks_mem :
    ∀ (tbls : List SaTable) (md : MetaData) (fk0 : ForeignKey),
      fk0 ∈ md.foreign_keys →
      fk0 ∈ (tbls.foldl reflect_table md).foreign_keys
  | [], _, _, h => h
  | t :: tbls, md, fk0, h => by
      rw [List.foldl_cons]
      refine foldl_reflect_table_fks_mem tbls _ fk0 ?_
      rw [reflect_table_eq]
      exact mem_mergeFks_of_mem _ md.foreign_keys fk0 h

/-- Foreign keys built while reflecting any of the tables are present
afterwards. -/
theorem foldl_reflect_table_fks_built :
    ∀ (tbls : List SaTable) (md : MetaData) (t : SaTable), t ∈ tbls →
      ∀ p ∈ buildFks (pyLower t.name) t.columns,
        fkOf p ∈ (tbls.foldl reflect_table md).foreign_keys
  | [], _, t, ht, _, _ => absurd ht (List.not_mem_nil t)
  | t0 :: tbls, md, t, ht, p, hp => by
      rw [List.foldl_cons]
      rcases List.mem_cons.mp ht with rfl | ht'
      · refine foldl_reflect_table_fks_mem tbls _ (fkOf p) ?_
        rw [reflect_table_eq]
        exact fkOf_mem_mergeFks _ md.foreign_keys p hp
      · exact foldl_reflect_table_fks_built tbls _ t ht' p hp

/-- C8 counterexample: a completed reflection that returns only the table
`new` (carrying no foreign keys) leaves both the previously cached table
`old` and the previously cached foreign key `old.a -> other.b` in the
snapshot — the entry is updated in place, not replaced wholesale, and
tables and foreign keys absent from the new reflection do survive. -/
theorem reflect_metadata_not_wholesale_counterexample :
    "old" ∈ (reflect_metadata
        { defaultMeta with
          isempty := false,
          tables := ({"old"} : Finset String),
          foreign_keys := [⟨"old", ["a"], "other", ["b"]⟩] }
        [⟨"new", [⟨"id", "INTEGER", []⟩]⟩] 5).tables ∧
    (⟨"old", ["a"], "other", ["b"]⟩ : ForeignKey) ∈
      (reflect_metadata
        { defaultMeta with
          isempty := false,
          tables := ({"old"} : Finset String),
          foreign_keys := [⟨"old", ["a"], "other", ["b"]⟩] }
        [⟨"new", [⟨"id", "INTEGER", []⟩]⟩] 5).foreign_keys ∧
    ([(⟨"new", [⟨"id", "INTEGER", []⟩]⟩ : SaTable)].map
        (fun t => (pyLower t.name))) = ["new"] ∧
    buildFks (pyLower "new") [⟨"id", "INTEGER", []⟩] = [] ∧
    ("old" : String) ≠ "new" := by
  refine ⟨?_, by decide, by decide, by decide, by decide⟩
  decide

/-- C8 amended: when a full reflection completes, the new data is merged
into the existing in-memory entry in place, not swapped in wholesale —
the post-reflection table set is the union of the previous tables with
the lowercased reflected names, previously cached fields, dotted fields
and foreign keys all survive, every foreign key built by the new
reflection is present, and the refresh stamps `created` and clears
`reflecting`.  Tables, fields and foreign keys absent from the new
reflection are not removed. -/
theorem reflect_metadata_merges (md : MetaData) (tbls : List SaTable)
    (now : Int) :
    (reflect_metadata md tbls now).tables =
      md.tables ∪ (tbls.map (fun t => (pyLower t.name))).toFinset ∧
    md.fields ⊆ (reflect_metadata md tbls now).fields ∧
    md.dottedfields ⊆ (reflect_metadata md tbls now).dottedfields ∧
    (∀ fk0 ∈ md.foreign_keys,
      fk0 ∈ (reflect_metadata md tbls now).foreign_keys) ∧
    (∀ t ∈ tbls, ∀ p ∈ buildFks (pyLower t.name) t.columns,
      fkOf p ∈ (reflect_metadata md tbls now).foreign_keys) ∧
    (reflect_metadata md tbls now).created = now ∧
    (reflect_metadata md tbls now).reflecting = false :=
  ⟨foldl_reflect_table_tables tbls md,
   foldl_reflect_table_fields_subset tbls md,
   foldl_reflect_table_dotted_subset tbls md,
   fun fk0 h => foldl_reflect_table_fks_mem tbls md fk0 h,
   fun t ht p hp => foldl_reflect_table_fks_built tbls md t ht p hp,
   rfl, rfl⟩

/-- C8 amended witness: a cached foreign key survives a reflection that
returns only a foreign-key-free table, and a rebuilt foreign key of a
reflected table is present afterwards. -/
theorem reflect_metadata_merges_witness :
    (⟨"old", ["a"], "other", ["b"]⟩ : ForeignKey) ∈
      (reflect_metadata
        { defaultMeta with foreign_keys := [⟨"old", ["a"], "other", ["b"]⟩] }
        [⟨"Orders",
          [⟨"Customer_ID", "INTEGER",
            [⟨some ⟨some "fk1"⟩, "Customers.ID"⟩]⟩]⟩] 5).foreign_keys ∧
    fkOf ((some "fk1"),
        ⟨pyLower "Orders", ["Customer_ID"], "Customers", ["ID"]⟩) ∈
      (reflect_metadata
        { defaultMeta with foreign_keys := [⟨"old", ["a"], "other", ["b"]⟩] }
        [⟨"Orders",
          [⟨"Customer_ID", "INTEGER",
            [⟨some ⟨some "fk1"⟩, "Customers.ID"⟩]⟩]⟩] 5).foreign_keys :=
  ⟨(reflect_metadata_merges
      { defaultMeta with foreign_keys := [⟨"old", ["a"], "other", ["b"]⟩] }
      [⟨"Orders",
        [⟨"Customer_ID", "INTEGER",
          [⟨some ⟨some "fk1"⟩, "Customers.ID"⟩]⟩]⟩] 5).2.2.2.1
      ⟨"old", ["a"], "other", ["b"]⟩ (by decide),
   (reflect_metadata_merges
      { defaultMeta with foreign_keys := [⟨"old", ["a"], "other", ["b"]⟩] }
      [⟨"Orders",
        [⟨"Customer_ID", "INTEGER",
          [⟨some ⟨some "fk1"⟩, "Customers.ID"⟩]⟩]⟩] 5).2.2.2.2.1
      ⟨"Orders",
       [⟨"Customer_ID", "INTEGER",
         [⟨some ⟨some "fk1"⟩, "Customers.ID"⟩]⟩]⟩ (by decide)
      ((some "fk1"),
        ⟨pyLower "Orders", ["Customer_ID"], "Customers", ["ID"]⟩)
      (by decide)⟩

/-! ## Dict lemmas and the lowercasing theorem (C10) -/

theorem dictGet_cons (p : String × String) (d : List (String × String))
    (k : String) :
    dictGet (p :: d) k = if p.1 = k then some p.2 else dictGet d k := by
  unfold dictGet
  rw [List.find?_cons]
  by_cases hp : p.1 = k <;> simp [hp]

/-- Overwriting other keys in place does not disturb a lookup. -/
theorem dictGet_map_ne (k v k' : String) (h : k' ≠ k) :
    ∀ (d : List (String × String)),
      dictGet (d.map (fun p => if p.1 = k then (k, v) else p)) k' =
        dictGet d k'
  | [] => rfl
  | p :: d => by
      rw [List.map_cons, dictGet_cons, dictGet_cons,
        dictGet_map_ne k v k' h d]
      by_cases hp : p.1 = k
      · rw [if_pos hp, hp]
        simp [Ne.symm h]
      · rw [if_neg hp]

/-- Looking one key past an appended pair with a different key. -/
theorem dictGet_append_ne (k v k' : String) (h : k' ≠ k)
    (d : List (String × String)) :
    dictGet (d ++ [(k, v)]) k' = dictGet d k' := by
  unfold dictGet
  rw [List.find?_append]
  have : List.find? (fun p => p.1 = k') [(k, v)] = none := by
    simp [List.find?, Ne.symm h]
  rw [this, Option.or_none]

/-- After `d[k] = v`, looking up `k` yields `v`. -/
theorem dictGet_dictSet_self (k v : String) :
    ∀ (d : List (String × String)), dictGet (dictSet d k v) k = some v
  | [] => by simp [dictSet, dictGet, List.find?]
  | p :: d => by
      by_cases hp : p.1 = k
      · have hany : (p :: d).any (fun q => q.1 = k) = true := by
          simp [List.any_cons, hp]
        simp only [dictSet, hany, if_true, List.map_cons, if_pos hp]
        rw [dictGet_cons]
        simp
      · by_cases hd : d.any (fun q => q.1 = k) = true
        · have hany : (p :: d).any (fun q => q.1 = k) = true := by
            simp [List.any_cons, hd]
          have hset : dictSet d k v =
              d.map (fun q => if q.1 = k then (k, v) else q) := by
            simp [dictSet, hd]
          simp only [dictSet, hany, if_true, List.map_cons, if_neg hp]
          rw [dictGet_cons, if_neg hp, ← hset, dictGet_dictSet_self k v d]
        · have hany : (p :: d).any (fun q => q.1 = k) = false := by
            rw [List.any_cons]
            simp only [Bool.or_eq_false_iff]
            exact ⟨by simp [hp], Bool.eq_false_iff.mpr hd⟩
          have hset : dictSet d k v = d ++ [(k, v)] := by
            simp [dictSet, hd]
          simp only [dictSet, hany, Bool.false_eq_true, if_false,
            List.cons_append]
          rw [dictGet_cons, if_neg hp, ← hset, dictGet_dictSet_self k v d]

/-- After `d[k] = v`, lookups of other keys are untouched. -/
theorem dictGet_dictSet_ne (k v k' : String) (h : k' ≠ k)
    (d : List (String × String)) :
    dictGet (dictSet d k v) k' = dictGet d k' := by
  unfold dictSet
  by_cases hd : d.any (fun q => q.1 = k) = true
  · rw [if_pos hd]
    exact dictGet_map_ne k v k' h d
  · rw [if_neg hd]
    exact dictGet_append_ne k v k' h d

/-- Strings cancel on the left of `++`. -/
theorem string_append_left_cancel {a x y : String} (h : a ++ x = a ++ y) :
    x = y := by
  have hd : (a ++ x).data = (a ++ y).data := congrArg String.data h
  rw [String.data_append, String.data_append] at hd
  have := List.append_cancel_left hd
  cases x; cases y
  exact congrArg String.mk this

/-- The types-dict fold leaves keys it never writes alone. -/
theorem types_foldl_preserve (tn : String) :
    ∀ (cols : List Column) (d : List (String × String)) (key : String),
      (∀ c ∈ cols, tn ++ "." ++ (pyLower c.name) ≠ key) →
      dictGet
        (cols.foldl
          (fun ty c => dictSet ty (tn ++ "." ++ (pyLower c.name)) c.ctype) d)
        key = dictGet d key
  | [], _, _, _ => rfl
  | c :: cols, d, key, h => by
      rw [List.foldl_cons,
        types_foldl_preserve tn cols _ key
          (fun c' hc' => h c' (List.mem_cons_of_mem _ hc'))]
      exact dictGet_dictSet_ne _ _ _
        (fun he => h c (List.mem_cons_self _ _) he.symm) d

/-- With pairwise-distinct lowercased column names, the types-dict fold
records each column's type under its dotted lowercased key. -/
theorem types_foldl_get (tn : String) :
    ∀ (cols : List Column) (d : List (String × String)),
      (cols.map (fun c => pyLower c.name)).Nodup →
      ∀ c ∈ cols,
        dictGet
          (cols.foldl
            (fun ty c' => dictSet ty (tn ++ "." ++ (pyLower c'.name)) c'.ctype)
            d)
          (tn ++ "." ++ (pyLower c.name)) = some c.ctype
  | [], _, _, c, hc => absurd hc (List.not_mem_nil c)
  | c0 :: cols, d, hnd, c, hc => by
      rw [List.foldl_cons]
      rcases List.mem_cons.mp hc with rfl | hc'
      · have hne : ∀ c' ∈ cols,
            tn ++ "." ++ (pyLower c'.name) ≠ tn ++ "." ++ (pyLower c.name) := by
          intro c' hc' heq
          have heq2 : pyLower c'.name = pyLower c.name :=
            string_append_left_cancel heq
          refine (List.nodup_cons.mp hnd).1 ?_
          show pyLower c.name ∈ List.map (fun q => pyLower q.name) cols
          rw [← heq2]
          exact List.mem_map_of_mem (fun q => pyLower q.name) hc'
        rw [types_foldl_preserve tn cols _ _ hne]
        exact dictGet_dictSet_self _ _ d
      · exact types_foldl_get tn cols _ (List.nodup_cons.mp hnd).2 c hc'

/-- Invariant of the foreign-key dict built for one table: every entry
carries the (lowercased) table name, and every recorded source column is
the original, un-lowercased name of a column that has truthy foreign-key
info. -/
theorem buildFks_props (tn : String) (allCols : List Column) :
    ∀ (cols : List Column) (acc : List (Option String × FkAccum)),
      (∀ c ∈ cols, c ∈ allCols) →
      (∀ p ∈ acc, p.2.table = tn ∧
        ∀ cn ∈ p.2.columns, ∃ c ∈ allCols, c.name = cn ∧
          optTruthy (getForeignKeyInfo c).2.2.2 = true) →
      ∀ p ∈ cols.foldl (fkStepOnly tn) acc, p.2.table = tn ∧
        ∀ cn ∈ p.2.columns, ∃ c ∈ allCols, c.name = cn ∧
          optTruthy (getForeignKeyInfo c).2.2.2 = true
  | [], _, _, hacc, p, hp => hacc p hp
  | c :: cols, acc, hsub, hacc, p, hp => by
      rw [List.foldl_cons] at hp
      refine buildFks_props tn allCols cols _
        (fun c' h => hsub c' (List.mem_cons_of_mem _ h)) ?_ p hp
      intro q hq
      simp only [fkStepOnly, fksAdd] at hq
      split_ifs at hq with htr hany
      · rcases List.mem_map.mp hq with ⟨q0, hq0, rfl⟩
        split_ifs with hkey
        · refine ⟨(hacc q0 hq0).1, ?_⟩
          intro cn hcn
          rcases List.mem_append.mp hcn with hcn | hcn
          · exact (hacc q0 hq0).2 cn hcn
          · rcases List.mem_singleton.mp hcn with rfl
            exact ⟨c, hsub c (List.mem_cons_self _ _), rfl, htr⟩
        · exact hacc q0 hq0
      · rcases List.mem_append.mp hq with hq | hq
        · exact hacc q hq
        · rcases List.mem_singleton.mp hq with rfl
          refine ⟨rfl, ?_⟩
          intro cn hcn
          rcases List.mem_singleton.mp hcn with rfl
          exact ⟨c, hsub c (List.mem_cons_self _ _), rfl, htr⟩
      · exact hacc q hq

/-- C10: `reflect_table` adds the lowercased table name to `tables`, and
for every column adds the lowercased field name to `fields`, the
lowercased dotted name to `dottedfields` and to the `types` index — while
every source column recorded inside the accumulated `ForeignKey` data
keeps the reflector's original, un-lowercased spelling. -/
theorem reflect_table_lowercases (md : MetaData) (t : SaTable)
    (hnd : (t.columns.map (fun c => pyLower c.name)).Nodup) :
    (reflect_table md t).tables = insert (pyLower t.name) md.tables ∧
    (∀ c ∈ t.columns,
      (pyLower c.name) ∈ (reflect_table md t).fields ∧
      ((pyLower t.name) ++ "." ++ (pyLower c.name)) ∈
        (reflect_table md t).dottedfields ∧
      dictGet (reflect_table md t).types
        ((pyLower t.name) ++ "." ++ (pyLower c.name)) = some c.ctype) ∧
    (∀ p ∈ buildFks (pyLower t.name) t.columns,
      p.2.table = (pyLower t.name) ∧
      ∀ cn ∈ p.2.columns, ∃ c ∈ t.columns, c.name = cn ∧
        optTruthy (getForeignKeyInfo c).2.2.2 = true) ∧
    (reflect_table md t).foreign_keys =
      mergeFks md.foreign_keys (buildFks (pyLower t.name) t.columns) := by
  rw [reflect_table_eq]
  refine ⟨rfl, ?_, ?_, rfl⟩
  · intro c hc
    exact ⟨mem_foldl_insert (fun q : Column => pyLower q.name) t.columns
        md.fields c hc,
      mem_foldl_insert
        (fun q : Column => (pyLower t.name) ++ "." ++ (pyLower q.name))
        t.columns md.dottedfields c hc,
      types_foldl_get (pyLower t.name) t.columns md.types hnd c hc⟩
  · exact buildFks_props (pyLower t.name) t.columns t.columns []
      (fun c h => h) (fun p hp => absurd hp (List.not_mem_nil p))

/-- C10 witness: reflecting a table `Orders(ID, Customer_ID -> Customers.ID)`
indexes it under lowercased names. -/
theorem reflect_table_lowercases_witness :
    (reflect_table defaultMeta
        ⟨"Orders",
         [⟨"ID", "INTEGER", []⟩,
          ⟨"Customer_ID", "INTEGER", [⟨some ⟨some "fk1"⟩, "Customers.ID"⟩]⟩]⟩).tables =
      insert (pyLower "Orders") defaultMeta.tables :=
  (reflect_table_lowercases defaultMeta
    ⟨"Orders",
     [⟨"ID", "INTEGER", []⟩,
      ⟨"Customer_ID", "INTEGER", [⟨some ⟨some "fk1"⟩, "Customers.ID"⟩]⟩]⟩
    (by decide)).1

/-! ## Theorems: `write_table` idempotence (C3) -/

theorem updateFieldRow_eq (fl : List DbFieldRow) (tid : Nat) (col : Column) :
    updateFieldRow fl tid col =
      fl.map (fun r =>
        if r.table_id = tid && r.name = col.name then setVals r col else r) :=
  rfl

/-- Conflicting insert: the caught exception turns into the update. -/
theorem writeFieldStep_conflict (tid : Nat) (fl : List DbFieldRow)
    (col : Column) (h : fieldConflict fl tid col.name = true) :
    writeFieldStep tid fl col = updateFieldRow fl tid col := by
  unfold writeFieldStep
  have hins : insertFieldE fl (newFieldRow fl tid col) = Except.error () := by
    unfold insertFieldE
    have ht : (newFieldRow fl tid col).table_id = tid := rfl
    have hn : (newFieldRow fl tid col).name = col.name := rfl
    rw [ht, hn, h]
    rfl
  rw [hins]

/-- Non-conflicting insert appends the fresh row. -/
theorem writeFieldStep_noconflict (tid : Nat) (fl : List DbFieldRow)
    (col : Column) (h : fieldConflict fl tid col.name = false) :
    writeFieldStep tid fl col = fl ++ [newFieldRow fl tid col] := by
  unfold writeFieldStep
  have hins : insertFieldE fl (newFieldRow fl tid col) =
      Except.ok (fl ++ [newFieldRow fl tid col]) := by
    unfold insertFieldE
    have ht : (newFieldRow fl tid col).table_id = tid := rfl
    have hn : (newFieldRow fl tid col).name = col.name := rfl
    rw [ht, hn, h]
    rfl
  rw [hins]

theorem setVals_matchKey (r : DbFieldRow) (col : Column) (tid : Nat)
    (nm : String) :
    ((setVals r col).table_id = tid && (setVals r col).name = nm) =
      (r.table_id = tid && r.name = nm) := rfl

theorem setVals_setVals (r : DbFieldRow) (col col' : Column) :
    setVals (setVals r col) col' = setVals r col' := rfl

theorem setVals_newFieldRow (fl : List DbFieldRow) (tid : Nat)
    (col : Column) :
    setVals (newFieldRow fl tid col) col = newFieldRow fl tid col := rfl

/-- One write step settles its own column: afterwards a row for
`(tid, col.name)` exists, and every such row carries exactly `col`'s
values. -/
theorem writeFieldStep_settles (tid : Nat) (fl : List DbFieldRow)
    (col : Column) :
    fieldConflict (writeFieldStep tid fl col) tid col.name = true ∧
    ∀ r ∈ writeFieldStep tid fl col,
      (r.table_id = tid && r.name = col.name) = true → r = setVals r col := by
  cases hcf : fieldConflict fl tid col.name
  · rw [writeFieldStep_noconflict tid fl col hcf]
    constructor
    · unfold fieldConflict
      rw [List.any_append]
      have : List.any [newFieldRow fl tid col]
          (fun r => r.table_id = tid && r.name = col.name) = true := by
        simp [newFieldRow]
      rw [this, Bool.or_true]
    · intro r hr hm
      rcases List.mem_append.mp hr with hr | hr
      · have h0 : fl.any
            (fun q => q.table_id = tid && q.name = col.name) = false := hcf
        exact absurd hm (List.any_eq_false.mp h0 r hr)
      · rcases List.mem_singleton.mp hr with rfl
        exact (setVals_newFieldRow fl tid col).symm
  · rw [writeFieldStep_conflict tid fl col hcf, updateFieldRow_eq]
    constructor
    · unfold fieldConflict
      rw [List.any_map]
      have hpt : ∀ r : DbFieldRow,
          ((fun q => q.table_id = tid && q.name = col.name) ∘
            (fun q => if q.table_id = tid && q.name = col.name
                      then setVals q col else q)) r =
            (r.table_id = tid && r.name = col.name) := by
        intro r
        by_cases hm : (r.table_id = tid && r.name = col.name) = true
        · simp only [Function.comp, if_pos hm, setVals_matchKey]
        · simp only [Function.comp, if_neg hm]
      unfold fieldConflict at hcf
      rcases List.any_eq_true.mp hcf with ⟨r, hr, hm⟩
      refine List.any_eq_true.mpr ⟨r, hr, ?_⟩
      rw [hpt r]
      exact hm
    · intro r' hr' hm'
      rcases List.mem_map.mp hr' with ⟨r, hr, rfl⟩
      by_cases hm : (r.table_id = tid && r.name = col.name) = true
      · rw [if_pos hm] at hm' ⊢
        exact (setVals_setVals r col col).symm
      · rw [if_neg hm] at hm' ⊢
        exact absurd hm' hm

/-- A write step for a differently named column disturbs neither the
existence nor the settled values of another column's rows. -/
theorem writeFieldStep_preserves (tid : Nat) (fl : List DbFieldRow)
    (col c : Column) (hne : col.name ≠ c.name) :
    (fieldConflict fl tid c.name = true →
      fieldConflict (writeFieldStep tid fl col) tid c.name = true) ∧
    ((∀ r ∈ fl, (r.table_id = tid && r.name = c.name) = true →
        r = setVals r c) →
      ∀ r ∈ writeFieldStep tid fl col,
        (r.table_id = tid && r.name = c.name) = true → r = setVals r c) := by
  cases hcf : fieldConflict fl tid col.name
  · rw [writeFieldStep_noconflict tid fl col hcf]
    constructor
    · intro h
      unfold fieldConflict at h ⊢
      rw [List.any_append, h, Bool.true_or]
    · intro hset r hr hm
      rcases List.mem_append.mp hr with hr | hr
      · exact hset r hr hm
      · rcases List.mem_singleton.mp hr with rfl
        have hname : (newFieldRow fl tid col).name = c.name :=
          of_decide_eq_true ((Bool.and_eq_true _ _).mp hm).2
        exact absurd hname hne
  · rw [writeFieldStep_conflict tid fl col hcf, updateFieldRow_eq]
    have hpt : ∀ r : DbFieldRow,
        (((if r.table_id = tid && r.name = col.name
           then setVals r col else r).table_id = tid &&
          (if r.table_id = tid && r.name = col.name
           then setVals r col else r).name = c.name)) =
          (r.table_id = tid && r.name = c.name) := by
      intro r
      by_cases hm : (r.table_id = tid && r.name = col.name) = true
      · rw [if_pos hm]
        exact setVals_matchKey r col tid c.name
      · rw [if_neg hm]
    constructor
    · intro h
      unfold fieldConflict at h ⊢
      rcases List.any_eq_true.mp h with ⟨r, hr, hm⟩
      refine List.any_eq_true.mpr ?_
      refine ⟨(if r.table_id = tid && r.name = col.name
               then setVals r col else r),
        List.mem_map_of_mem _ hr, ?_⟩
      rw [hpt r]
      exact hm
    · intro hset r' hr' hm'
      rcases List.mem_map.mp hr' with ⟨r, hr, rfl⟩
      by_cases hm : (r.table_id = tid && r.name = col.name) = true
      · rw [if_pos hm] at hm' ⊢
        rw [setVals_matchKey] at hm'
        have h1 : r.name = col.name :=
          of_decide_eq_true ((Bool.and_eq_true _ _).mp hm).2
        have h2 : r.name = c.name :=
          of_decide_eq_true ((Bool.and_eq_true _ _).mp hm').2
        exact absurd (h1 ▸ h2) hne
      · rw [if_neg hm] at hm' ⊢
        exact hset r hr hm'

/-- Steps for other columns, folded, keep a column settled. -/
theorem foldl_writeFieldStep_preserves (tid : Nat) (c : Column) :
    ∀ (cols : List Column) (fl : List DbFieldRow),
      (∀ c' ∈ cols, c'.name ≠ c.name) →
      (fieldConflict fl tid c.name = true ∧
        ∀ r ∈ fl, (r.table_id = tid && r.name = c.name) = true →
          r = setVals r c) →
      fieldConflict (cols.foldl (writeFieldStep tid) fl) tid c.name = true ∧
      ∀ r ∈ cols.foldl (writeFieldStep tid) fl,
        (r.table_id = tid && r.name = c.name) = true → r = setVals r c
  | [], _, _, h => h
  | c0 :: cols, fl, hne, h => by
      rw [List.foldl_cons]
      exact foldl_writeFieldStep_preserves tid c cols _
        (fun c' h' => hne c' (List.mem_cons_of_mem _ h'))
        ⟨(writeFieldStep_preserves tid fl c0 c
            (hne c0 (List.mem_cons_self _ _))).1 h.1,
         (writeFieldStep_preserves tid fl c0 c
            (hne c0 (List.mem_cons_self _ _))).2 h.2⟩

/-- After one pass over columns with pairwise-distinct names, every
column's row exists and carries exactly that column's values. -/
theorem foldl_writeFieldStep_settles (tid : Nat) :
    ∀ (cols : List Column) (fl : List DbFieldRow),
      (cols.map (fun c => c.name)).Nodup →
      ∀ c ∈ cols,
        fieldConflict (cols.foldl (writeFieldStep tid) fl) tid c.name = true ∧
        ∀ r ∈ cols.foldl (writeFieldStep tid) fl,
          (r.table_id = tid && r.name = c.name) = true → r = setVals r c
  | [], _, _, c, hc => absurd hc (List.not_mem_nil c)
  | c0 :: cols, fl, hnd, c, hc => by
      rw [List.foldl_cons]
      rcases List.mem_cons.mp hc with rfl | hc'
      · have hne : ∀ c' ∈ cols, c'.name ≠ c.name := by
          intro c' h' heq
          refine (List.nodup_cons.mp hnd).1 ?_
          show c.name ∈ List.map (fun q => q.name) cols
          rw [← heq]
          exact List.mem_map_of_mem (fun q => q.name) h'
        exact foldl_writeFieldStep_preserves tid c cols _ hne
          (writeFieldStep_settles tid fl c)
      · exact foldl_writeFieldStep_settles tid cols _
          (List.nodup_cons.mp hnd).2 c hc'

/-- A pass over columns whose rows are all present and settled is the
identity on the row list. -/
theorem foldl_writeFieldStep_id (tid : Nat) :
    ∀ (cols : List Column) (fl : List DbFieldRow),
      (∀ c ∈ cols,
        fieldConflict fl tid c.name = true ∧
        ∀ r ∈ fl, (r.table_id = tid && r.name = c.name) = true →
          r = setVals r c) →
      cols.foldl (writeFieldStep tid) fl = fl
  | [], _, _ => rfl
  | c :: cols, fl, h => by
      have hstep : writeFieldStep tid fl c = fl := by
        rw [writeFieldStep_conflict tid fl c
          (h c (List.mem_cons_self _ _)).1, updateFieldRow_eq]
        refine (List.map_congr_left ?_).trans (List.map_id fl)
        intro r hr
        by_cases hm : (r.table_id = tid && r.name = c.name) = true
        · rw [if_pos hm]
          exact ((h c (List.mem_cons_self _ _)).2 r hr hm).symm
        · rw [if_neg hm]
          rfl
      rw [List.foldl_cons, hstep]
      exact foldl_writeFieldStep_id tid cols fl
        (fun c' h' => h c' (List.mem_cons_of_mem _ h'))

/-- `resolveTableId` never touches `dbfields`. -/
theorem resolveTableId_dbfields (s : Store) (k tn : String) (n : Int) :
    (resolveTableId s k tn n).2.dbfields = s.dbfields := by
  unfold resolveTableId
  cases hx : selectTableId s k tn <;> simp

/-- The row list `write_table` leaves behind. -/
theorem write_table_dbfields (s : Store) (k : String) (n : Int)
    (t : SaTable) :
    (write_table s k n t).dbfields =
      t.columns.foldl (writeFieldStep (resolveTableId s k t.name n).1)
        s.dbfields := by
  simp only [write_table]
  rw [resolveTableId_dbfields]

/-- When the table row already exists, `write_table` only upserts
fields. -/
theorem write_table_some (s : Store) (k : String) (n : Int) (t : SaTable)
    (i : Nat) (h : selectTableId s k t.name = some i) :
    write_table s k n t =
      { s with dbfields := t.columns.foldl (writeFieldStep i) s.dbfields } := by
  simp only [write_table, resolveTableId, h]

/-- After a `write_table`, the table row is found, with the id the first
call used. -/
theorem selectTableId_after_write (s : Store) (k : String) (n : Int)
    (t : SaTable) :
    selectTableId (write_table s k n t) k t.name =
      some (resolveTableId s k t.name n).1 := by
  cases hsel : selectTableId s k t.name with
  | some i =>
      simp only [write_table, resolveTableId, hsel]
      exact hsel
  | none =>
      simp only [write_table, resolveTableId, hsel]
      have hfind : List.find?
          (fun r => r.db_key = k && r.name = t.name) s.dbtables = none := by
        unfold selectTableId at hsel
        cases hf : List.find?
            (fun r => r.db_key = k && r.name = t.name) s.dbtables
        · rfl
        · rw [hf] at hsel
          simp at hsel
      unfold selectTableId
      rw [List.find?_append, hfind]
      simp

/-- C3: calling `write_table` twice with identical input leaves the store
exactly as the single call did — the second call changes no rows. -/
theorem write_table_idempotent (s : Store) (k : String) (n1 n2 : Int)
    (t : SaTable) (hnd : (t.columns.map (fun c => c.name)).Nodup) :
    write_table (write_table s k n1 t) k n2 t = write_table s k n1 t := by
  rw [write_table_some (write_table s k n1 t) k n2 t
    (resolveTableId s k t.name n1).1 (selectTableId_after_write s k n1 t)]
  have hFF : t.columns.foldl
      (writeFieldStep (resolveTableId s k t.name n1).1)
      (write_table s k n1 t).dbfields = (write_table s k n1 t).dbfields := by
    rw [write_table_dbfields]
    exact foldl_writeFieldStep_id (resolveTableId s k t.name n1).1 t.columns _
      (fun c hc => foldl_writeFieldStep_settles
        (resolveTableId s k t.name n1).1 t.columns s.dbfields hnd c hc)
  rw [hFF]

/-- C3 witness: a concrete two-column table (with a foreign key) written
twice into an empty store. -/
theorem write_table_idempotent_witness :
    ((([⟨"id", "INTEGER", []⟩,
        ⟨"customer_id", "INTEGER",
         [⟨some ⟨some "fk1"⟩, "customers.id"⟩]⟩] : List Column).map
        (fun c => c.name)).Nodup) ∧
    write_table
        (write_table emptyStore "k" 1
          ⟨"orders",
           [⟨"id", "INTEGER", []⟩,
            ⟨"customer_id", "INTEGER",
             [⟨some ⟨some "fk1"⟩, "customers.id"⟩]⟩]⟩) "k" 2
        ⟨"orders",
         [⟨"id", "INTEGER", []⟩,
          ⟨"customer_id", "INTEGER",
           [⟨some ⟨some "fk1"⟩, "customers.id"⟩]⟩]⟩ =
      write_table emptyStore "k" 1
        ⟨"orders",
         [⟨"id", "INTEGER", []⟩,
          ⟨"customer_id", "INTEGER",
           [⟨some ⟨some "fk1"⟩, "customers.id"⟩]⟩]⟩ :=
  ⟨by decide,
   write_table_idempotent emptyStore "k" 1 2
     ⟨"orders",
      [⟨"id", "INTEGER", []⟩,
       ⟨"customer_id", "INTEGER",
        [⟨some ⟨some "fk1"⟩, "customers.id"⟩]⟩]⟩ (by decide)⟩

/-! ## Theorems: uniqueness violations are caught, never surfaced (C4) -/

/-- An absent `(db_key, name)` row means the `dbtable` uniqueness check
cannot fire. -/
theorem selectTableId_none_any_false (s : Store) (k tn : String)
    (h : selectTableId s k tn = none) :
    s.dbtables.any (fun r => r.db_key = k && r.name = tn) = false := by
  unfold selectTableId at h
  have hfind : List.find? (fun r => r.db_key = k && r.name = tn)
      s.dbtables = none := by
    cases hf : List.find? (fun r => r.db_key = k && r.name = tn) s.dbtables
    · rfl
    · rw [hf] at h
      simp at h
  exact List.any_eq_false.mpr (List.find?_eq_none.mp hfind)

/-- C4: during `write_table` and `write`, every uniqueness violation an
insert raises is caught and converted into an update of the rows with the
same `(table_id, name)` key, and no error ever reaches the caller: the
exception-explicit embeddings always return `Except.ok`. -/
theorem integrity_error_caught (s : Store) (k table field type_ : String)
    (now : Int) (t : SaTable) (fl : List DbFieldRow) (tid : Nat)
    (col : Column) :
    write_tableE s k now t = Except.ok (write_table s k now t) ∧
    writeE s k table field type_ now =
      Except.ok (write s k table field type_ now) ∧
    (fieldConflict fl tid col.name = true →
      writeFieldStep tid fl col = updateFieldRow fl tid col) ∧
    (fieldConflict fl tid field = true →
      writeFieldSimpleStep tid fl field type_ =
        fl.map (fun r =>
          if r.table_id = tid && r.name = field then { r with type_ := type_ }
          else r)) := by
  refine ⟨?_, ?_, writeFieldStep_conflict tid fl col, ?_⟩
  · cases hsel : selectTableId s k t.name with
    | some i =>
        rw [write_table_some s k now t i hsel]
        simp [write_tableE, hsel]
    | none =>
        have hany := selectTableId_none_any_false s k t.name hsel
        simp [write_tableE, hsel, hany, write_table, resolveTableId]
  · cases hsel : selectTableId s k table with
    | some i =>
        simp [writeE, hsel, write, resolveTableId]
    | none =>
        have hany := selectTableId_none_any_false s k table hsel
        simp [writeE, hsel, hany, write, resolveTableId]
  · intro h
    simp only [writeFieldSimpleStep]
    have hins : insertFieldE fl
        ⟨nextFieldId fl, tid, field, type_, none, none, none, none⟩ =
        Except.error () := by
      unfold insertFieldE
      rw [show (⟨nextFieldId fl, tid, field, type_, none, none, none,
          none⟩ : DbFieldRow).table_id = tid from rfl,
        show (⟨nextFieldId fl, tid, field, type_, none, none, none,
          none⟩ : DbFieldRow).name = field from rfl, h]
      rfl
    rw [hins]

/-- C4 witness: an insert for an already-present `(table_id, name)` pair
conflicts and becomes exactly the update of that row. -/
theorem integrity_error_caught_witness :
    fieldConflict [⟨1, 7, "id", "OLD", none, none, none, none⟩] 7 "id" =
      true ∧
    writeFieldStep 7 [⟨1, 7, "id", "OLD", none, none, none, none⟩]
        ⟨"id", "INTEGER", []⟩ =
      updateFieldRow [⟨1, 7, "id", "OLD", none, none, none, none⟩] 7
        ⟨"id", "INTEGER", []⟩ :=
  ⟨by decide,
   (integrity_error_caught emptyStore "k" "t" "f" "ty" 0 ⟨"t", []⟩
     [⟨1, 7, "id", "OLD", none, none, none, none⟩] 7
     ⟨"id", "INTEGER", []⟩).2.2.1 (by decide)⟩

end Ipydb
